import Mathlib

/-!
Verification development for the structural parser, text wrapper, paginator
and TOC builder of tflegal.py.  Python functions are shallowly embedded as
Lean functions over `String`/`List`; Python `while` loops over indices are
modelled by structural recursion on an explicit iteration budget that is
always chosen large enough (one iteration per remaining list element plus
one), so that the Lean function agrees with the loop whenever the loop
terminates.
-/

namespace TFLegal

/-! ### Python string primitives -/

/-- Whitespace as recognised by Python's `str.split()` / `str.strip()`
(restricted to the ASCII whitespace characters). -/
def isPySpace (c : Char) : Bool :=
  c = ' ' || c = '\t' || c = '\n' || c = '\r' || c = '\x0b' || c = '\x0c'

/-- Python `str.strip()`: drop leading and trailing whitespace. -/
def pyStrip (s : String) : String :=
  String.mk (((s.data.dropWhile (fun c => isPySpace c)).reverse.dropWhile
    (fun c => isPySpace c)).reverse)

/-- Python `str.rstrip(c)` for a single character `c`: drop every trailing
occurrence of `c`. -/
def rstripChar (c : Char) (s : String) : String :=
  String.mk ((s.data.reverse.dropWhile (fun x => x = c)).reverse)

/-- The `line.rstrip('\n').rstrip('\r')` normalisation applied by
`parse_header_and_sections` to every line. -/
def rstripNL (s : String) : String :=
  rstripChar '\r' (rstripChar '\n' s)

/-- Helper for `pySplit`: walk the characters, `acc` holds the reversed
current word. -/
def pySplitAux : List Char → List Char → List String
  | [], acc => if acc = [] then [] else [String.mk acc.reverse]
  | c :: cs, acc =>
    if isPySpace c then
      if acc = [] then pySplitAux cs []
      else String.mk acc.reverse :: pySplitAux cs []
    else pySplitAux cs (c :: acc)

/-- Python `str.split()` with no argument: split on runs of whitespace,
discarding empty pieces. -/
def pySplit (s : String) : List String :=
  pySplitAux s.data []

/-- Helper for `splitNl`: split a character list at every newline,
`acc` holds the reversed current piece. -/
def splitNlAux : List Char → List Char → List String
  | [], acc => [String.mk acc.reverse]
  | c :: cs, acc =>
    if c = '\n' then String.mk acc.reverse :: splitNlAux cs []
    else splitNlAux cs (c :: acc)

/-- Python `str.split('\n')`: split at every newline, keeping empty pieces. -/
def splitNl (s : String) : List String :=
  splitNlAux s.data []

/-- Python `str.splitlines()` for newline-only text: like `split('\n')` but
without the final empty piece produced by a trailing newline, and `[]` on
the empty string. -/
def pySplitlines (s : String) : List String :=
  if s.data = [] then []
  else
    let parts := splitNl s
    if parts.getLast? = some "" then parts.dropLast else parts

/-- Concatenation of per-element lists, in order (successive Python
`list.extend`/`append` calls inside a loop). -/
def catMap (f : α → List β) : List α → List β
  | [] => []
  | a :: l => f a ++ catMap f l

/-- Contiguous index range `[s, s + n)` in order. -/
def idxRange : Nat → Nat → List Nat
  | _, 0 => []
  | s, n + 1 => s :: idxRange (s + 1) n

/-! ### Basic lemmas about the string primitives -/

theorem string_data_inj {a b : String} (h : a.data = b.data) : a = b := by
  cases a; cases b; cases h; rfl

theorem string_append_nil (s : String) : s ++ "" = s := by
  have h : (s ++ "").data = s.data := by
    rw [String.data_append]
    exact List.append_nil s.data
  exact string_data_inj h

theorem string_append_assoc (a b c : String) : a ++ b ++ c = a ++ (b ++ c) := by
  apply string_data_inj
  simp [String.data_append]

theorem string_ne_empty_of_data_ne {s : String} (h : s.data ≠ []) : s ≠ "" := by
  intro he
  exact h (by rw [he])

theorem catMap_append (f : α → List β) (l₁ l₂ : List α) :
    catMap f (l₁ ++ l₂) = catMap f l₁ ++ catMap f l₂ := by
  induction l₁ with
  | nil => rfl
  | cons a l ih => simp [catMap, ih]

theorem idxRange_append : ∀ (m : Nat) (s n : Nat),
    idxRange s (m + n) = idxRange s m ++ idxRange (s + m) n := by
  intro m
  induction m with
  | zero => intro s n; simp [idxRange]
  | succ m ih =>
    intro s n
    have h1 : m + 1 + n = (m + n) + 1 := by omega
    rw [h1]
    simp only [idxRange, ih (s + 1) n]
    have h2 : s + 1 + m = s + (m + 1) := by omega
    rw [h2, List.cons_append]

/-! ### Line-level predicates of the source -/

/-- Case-insensitively match and drop a fixed lowercase pattern from the
head of a character list. -/
def ciDropPattern : List Char → List Char → Option (List Char)
  | [], l => some l
  | _ :: _, [] => none
  | p :: ps, c :: cs => if c.toLower = p then ciDropPattern ps cs else none

/-- `is_exhibit_reference` matching helper: does `EXHIBIT\s+\d+:`
(case-insensitively) match at the head of this character list?
The regex is deterministic here: each greedy run is maximal and no
backtracked split can succeed, because run characters never equal the
character required next. -/
def exhibit_ref_at (l : List Char) : Bool :=
  match ciDropPattern ['e', 'x', 'h', 'i', 'b', 'i', 't'] l with
  | none => false
  | some l1 =>
    if l1.takeWhile (fun c => isPySpace c) = [] then false
    else
      let l2 := l1.dropWhile (fun c => isPySpace c)
      if l2.takeWhile (fun c => c.isDigit) = [] then false
      else
        match l2.dropWhile (fun c => c.isDigit) with
        | ':' :: _ => true
        | _ => false

/-- Word character for the regex `\b` boundary (ASCII model of `\w`). -/
def isWordChar (c : Char) : Bool :=
  c.isAlphanum || c = '_'

/-- Search loop for `is_exhibit_reference`: try the pattern at every
position whose preceding character (if any) is not a word character. -/
def exhibit_search : Option Char → List Char → Bool
  | _, [] => false
  | prev, c :: cs =>
    ((match prev with | none => true | some p => !isWordChar p)
        && exhibit_ref_at (c :: cs))
      || exhibit_search (some c) cs

/-- Source `is_exhibit_reference`: `re.search(r'\bEXHIBIT\s+\d+:', line,
re.IGNORECASE)`. -/
def is_exhibit_reference (line_str : String) : Bool :=
  exhibit_search none line_str.data

/-- Source `is_line_all_caps`: contains an ASCII capital letter and no ASCII
lowercase letter. -/
def is_line_all_caps (line_str : String) : Bool :=
  line_str.data.any Char.isUpper && line_str.data.all (fun c => !c.isLower)

/-- Source `is_line_of_equals`: the stripped line has length at least 5 and
consists solely of `=` characters. -/
def is_line_of_equals (line_str : String) : Bool :=
  let s := pyStrip line_str
  decide (5 ≤ s.data.length) && s.data.all (fun c => c = '=')

/-- Source `is_line_of_dashes`: the stripped line has length at least 5 and
consists solely of `-` characters. -/
def is_line_of_dashes (line_str : String) : Bool :=
  let s := pyStrip line_str
  decide (5 ≤ s.data.length) && s.data.all (fun c => c = '-')

/-! ### TitleBlockScanner (`detect_legal_title_blocks`) -/

/-- One item yielded by the scanner. -/
inductive ScanItem where
  | titleBlock (lines : List String)
  | delim (line : String)
  | normal (line : String)
deriving DecidableEq

/-- The inner lookahead of `detect_legal_title_blocks`: scan for the next
`=`-delimiter line; on success return the lines strictly before it and the
lines strictly after it. -/
def splitAtEquals : List String → Option (List String × List String)
  | [] => none
  | x :: xs =>
    if is_line_of_equals x then some ([], xs)
    else (splitAtEquals xs).map (fun p => (x :: p.1, p.2))

/-- The scanner loop; the budget bounds the number of yields, and every
yield consumes at least one line. -/
def detect_loop : Nat → List String → List ScanItem
  | 0, _ => []
  | _, [] => []
  | fuel + 1, l :: rest =>
    if is_line_of_equals l then
      match splitAtEquals rest with
      | some (inner, after) => ScanItem.titleBlock inner :: detect_loop fuel after
      | none => ScanItem.delim l :: detect_loop fuel rest
    else if is_line_of_dashes l then ScanItem.delim l :: detect_loop fuel rest
    else ScanItem.normal l :: detect_loop fuel rest

/-- Source `detect_legal_title_blocks` as a function from the line list to
the list of yielded items. -/
def detect_legal_title_blocks (lines : List String) : List ScanItem :=
  detect_loop (lines.length + 1) lines

theorem splitAtEquals_none {lines : List String}
    (h : ∀ x ∈ lines, is_line_of_equals x = false) :
    splitAtEquals lines = none := by
  induction lines with
  | nil => rfl
  | cons x xs ih =>
    simp only [splitAtEquals, h x (by simp)]
    rw [ih (fun y hy => h y (by simp [hy]))]
    rfl

theorem detect_loop_no_title :
    ∀ (lines : List String), (∀ x ∈ lines, is_line_of_equals x = false) →
      ∀ fuel item, item ∈ detect_loop fuel lines →
        ∀ ls, item ≠ ScanItem.titleBlock ls := by
  intro lines
  induction lines with
  | nil => intro _ fuel item hmem; cases fuel <;> simp [detect_loop] at hmem
  | cons x xs ih =>
    intro h fuel item hmem ls
    have hx : is_line_of_equals x = false := h x (by simp)
    have hxs : ∀ y ∈ xs, is_line_of_equals y = false :=
      fun y hy => h y (by simp [hy])
    cases fuel with
    | zero => simp [detect_loop] at hmem
    | succ fuel =>
      simp only [detect_loop] at hmem
      rw [if_neg (by simp [hx])] at hmem
      split at hmem <;> rcases List.mem_cons.mp hmem with h1 | h1 <;>
        first
          | (subst h1; simp)
          | exact ih hxs fuel item h1 ls

/-- C9.  When an `=`-delimiter line is never closed, the scanner yields it
as a bare delimiter mark, resumes at the very next line (scanning the rest
of the range exactly as it would on its own), and forms no title block. -/
theorem unterminated_title_block_fallback (l : String) (rest : List String)
    (h1 : is_line_of_equals l = true)
    (h2 : ∀ x ∈ rest, is_line_of_equals x = false) :
    detect_legal_title_blocks (l :: rest)
        = ScanItem.delim l :: detect_legal_title_blocks rest
      ∧ ∀ item ∈ detect_legal_title_blocks (l :: rest),
          ∀ ls, item ≠ ScanItem.titleBlock ls := by
  have hsplit : splitAtEquals rest = none := splitAtEquals_none h2
  have hstep : detect_legal_title_blocks (l :: rest)
      = ScanItem.delim l :: detect_legal_title_blocks rest := by
    simp [detect_legal_title_blocks, detect_loop, h1, hsplit, List.length_cons]
  refine ⟨hstep, ?_⟩
  intro item hmem ls
  rw [hstep] at hmem
  rcases List.mem_cons.mp hmem with h | h
  · simp [h]
  · exact detect_loop_no_title rest h2 _ item h ls

/-- Witness for C9 at a concrete unterminated block. -/
theorem unterminated_title_block_fallback_witness :
    is_line_of_equals "=====" = true
      ∧ (∀ x ∈ ["IN THE COURT", "-----"], is_line_of_equals x = false)
      ∧ detect_legal_title_blocks ["=====", "IN THE COURT", "-----"]
          = ScanItem.delim "=====" :: detect_legal_title_blocks ["IN THE COURT", "-----"] :=
  ⟨by decide, by decide,
    (unterminated_title_block_fallback "=====" ["IN THE COURT", "-----"]
      (by decide) (by decide)).1⟩

/-! ### TextWrapper (`wrap_text_to_lines`) -/

theorem mk_data (l : List Char) : (String.mk l).data = l := rfl

theorem mk_data_eta (s : String) : String.mk s.data = s := rfl

/-- Greedy word-accumulation loop of `wrap_text_to_lines` for a single
paragraph: `current_line` is the line being built; flushing marks the line
as wrapped, the trailing flush does not.  `measure` models
`pdf_canvas.stringWidth` at the fixed font and size of the call. -/
def wrap_words (measure : String → ℚ) (max_width : ℚ) :
    List String → String → List (String × Bool)
  | [], current_line => if current_line = "" then [] else [(current_line, false)]
  | word :: words, current_line =>
    let test_line := if current_line = "" then word else current_line ++ " " ++ word
    if measure test_line ≤ max_width then wrap_words measure max_width words test_line
    else (current_line, true) :: wrap_words measure max_width words word

/-- The per-paragraph body of `wrap_text_to_lines`: an empty word list
yields one empty unwrapped line, otherwise the greedy loop starts from the
empty current line. -/
def wrap_paragraph (measure : String → ℚ) (max_width : ℚ) (paragraph : String) :
    List (String × Bool) :=
  let words := pySplit paragraph
  if words = [] then [("", false)] else wrap_words measure max_width words ""

/-- Source `wrap_text_to_lines`: split the text at newlines and wrap each
paragraph, concatenating the results in order. -/
def wrap_text_to_lines (measure : String → ℚ) (full_text : String) (max_width : ℚ) :
    List (String × Bool) :=
  catMap (wrap_paragraph measure max_width) (splitNl full_text)

theorem pySplitAux_append_space {c : Char} (hc : isPySpace c = true) (b : List Char) :
    ∀ (a acc : List Char),
      pySplitAux (a ++ c :: b) acc = pySplitAux a acc ++ pySplitAux b [] := by
  intro a
  induction a with
  | nil =>
    intro acc
    simp only [List.nil_append, pySplitAux, hc, if_true]
    by_cases hacc : acc = [] <;> simp [hacc, pySplitAux]
  | cons d a ih =>
    intro acc
    simp only [List.cons_append, pySplitAux]
    by_cases hd : isPySpace d
    · simp only [hd, if_true]
      by_cases hacc : acc = [] <;> simp [hacc, ih]
    · simp [hd, ih]

theorem pySplitAux_no_space :
    ∀ (w : List Char), (∀ c ∈ w, isPySpace c = false) →
      ∀ acc, pySplitAux w acc
        = if acc.reverse ++ w = [] then [] else [String.mk (acc.reverse ++ w)] := by
  intro w
  induction w with
  | nil =>
    intro _ acc
    by_cases hacc : acc = [] <;> simp [hacc, pySplitAux]
  | cons c w ih =>
    intro h acc
    have hc : isPySpace c = false := h c (by simp)
    simp only [pySplitAux, hc, Bool.false_eq_true, if_false]
    rw [ih (fun d hd => h d (by simp [hd])) (c :: acc)]
    simp

theorem pySplitAux_mem :
    ∀ (l acc : List Char), (∀ c ∈ acc, isPySpace c = false) →
      ∀ w ∈ pySplitAux l acc, w.data ≠ [] ∧ ∀ c ∈ w.data, isPySpace c = false := by
  intro l
  induction l with
  | nil =>
    intro acc hacc w hw
    by_cases h : acc = []
    · simp [pySplitAux, h] at hw
    · rw [show pySplitAux [] acc = [String.mk acc.reverse] from by simp [pySplitAux, h]] at hw
      rw [List.mem_singleton] at hw
      subst hw
      refine ⟨by simp [mk_data, h], ?_⟩
      intro c hc
      exact hacc c (List.mem_reverse.mp (by simpa [mk_data] using hc))
  | cons d l ih =>
    intro acc hacc w hw
    by_cases hd : isPySpace d
    · by_cases h : acc = []
      · rw [show pySplitAux (d :: l) acc = pySplitAux l [] from by
          simp [pySplitAux, hd, h]] at hw
        exact ih [] (by simp) w hw
      · rw [show pySplitAux (d :: l) acc = String.mk acc.reverse :: pySplitAux l [] from by
          simp [pySplitAux, hd, h]] at hw
        rcases List.mem_cons.mp hw with h1 | h1
        · subst h1
          refine ⟨by simp [mk_data, h], ?_⟩
          intro c hc
          exact hacc c (List.mem_reverse.mp (by simpa [mk_data] using hc))
        · exact ih [] (by simp) w h1
    · rw [show pySplitAux (d :: l) acc = pySplitAux l (d :: acc) from by
        simp [pySplitAux, hd]] at hw
      refine ih (d :: acc) ?_ w hw
      intro c hc
      rcases List.mem_cons.mp hc with h1 | h1
      · subst h1; simpa using hd
      · exact hacc c h1

theorem pySplit_empty : pySplit "" = [] := rfl

theorem pySplit_append_space (a b : String) :
    pySplit (a ++ " " ++ b) = pySplit a ++ pySplit b := by
  have hsp : (" " : String).data = [' '] := rfl
  have hd : (a ++ " " ++ b).data = a.data ++ ' ' :: b.data := by
    simp [String.data_append, hsp]
  unfold pySplit
  rw [hd]
  exact pySplitAux_append_space (by decide) b.data a.data []

theorem pySplit_word {w : String} (h1 : w.data ≠ [])
    (h2 : ∀ c ∈ w.data, isPySpace c = false) : pySplit w = [w] := by
  unfold pySplit
  rw [pySplitAux_no_space w.data h2 []]
  simp [h1, mk_data_eta]

theorem pySplit_mem {s : String} :
    ∀ w ∈ pySplit s, w.data ≠ [] ∧ ∀ c ∈ w.data, isPySpace c = false :=
  fun w hw => pySplitAux_mem s.data [] (by simp) w hw

theorem splitNl_catMap :
    ∀ (l acc : List Char),
      catMap pySplit (splitNlAux l acc) = pySplitAux (acc.reverse ++ l) [] := by
  intro l
  induction l with
  | nil =>
    intro acc
    simp [splitNlAux, catMap, pySplit, mk_data]
  | cons c cs ih =>
    intro acc
    by_cases hc : c = '\n'
    · subst hc
      rw [show splitNlAux ('\n' :: cs) acc = String.mk acc.reverse :: splitNlAux cs [] from by
        simp [splitNlAux]]
      rw [show catMap pySplit (String.mk acc.reverse :: splitNlAux cs [])
          = pySplit (String.mk acc.reverse) ++ catMap pySplit (splitNlAux cs []) from rfl]
      rw [ih [], pySplitAux_append_space (by decide) cs acc.reverse []]
      simp [pySplit, mk_data]
    · rw [show splitNlAux (c :: cs) acc = splitNlAux cs (c :: acc) from by
        simp [splitNlAux, hc]]
      rw [ih (c :: acc)]
      simp

theorem catMap_pySplit_splitNl (s : String) :
    catMap pySplit (splitNl s) = pySplit s := by
  unfold splitNl pySplit
  simpa using splitNl_catMap s.data []

theorem wrap_words_coverage (measure : String → ℚ) (max_width : ℚ) :
    ∀ (ws : List String) (cur : String),
      (∀ w ∈ ws, w.data ≠ [] ∧ ∀ c ∈ w.data, isPySpace c = false) →
      catMap pySplit ((wrap_words measure max_width ws cur).map Prod.fst)
        = pySplit cur ++ ws := by
  intro ws
  induction ws with
  | nil =>
    intro cur _
    by_cases hcur : cur = ""
    · simp [wrap_words, hcur, catMap, pySplit_empty]
    · simp [wrap_words, hcur, catMap]
  | cons w ws ih =>
    intro cur h
    have hw := h w (by simp)
    have hws : ∀ v ∈ ws, v.data ≠ [] ∧ ∀ c ∈ v.data, isPySpace c = false :=
      fun v hv => h v (by simp [hv])
    have hsplitw : pySplit w = [w] := pySplit_word hw.1 hw.2
    by_cases hcur : cur = ""
    · subst hcur
      rw [show wrap_words measure max_width (w :: ws) ""
          = if measure w ≤ max_width then wrap_words measure max_width ws w
            else ("", true) :: wrap_words measure max_width ws w from by
        simp [wrap_words]]
      by_cases hm : measure w ≤ max_width
      · rw [if_pos hm, ih w hws, hsplitw]
        simp [pySplit_empty]
      · rw [if_neg hm]
        rw [show (((("", true) : String × Bool) :: wrap_words measure max_width ws w).map
            Prod.fst) = "" :: (wrap_words measure max_width ws w).map Prod.fst from rfl]
        rw [show catMap pySplit ("" :: (wrap_words measure max_width ws w).map Prod.fst)
            = pySplit "" ++ catMap pySplit ((wrap_words measure max_width ws w).map Prod.fst)
          from rfl]
        rw [ih w hws, hsplitw]
        simp [pySplit_empty]
    · rw [show wrap_words measure max_width (w :: ws) cur
          = if measure (cur ++ " " ++ w) ≤ max_width
            then wrap_words measure max_width ws (cur ++ " " ++ w)
            else (cur, true) :: wrap_words measure max_width ws w from by
        simp [wrap_words, hcur]]
      have htest : pySplit (cur ++ " " ++ w) = pySplit cur ++ [w] := by
        rw [pySplit_append_space, hsplitw]
      by_cases hm : measure (cur ++ " " ++ w) ≤ max_width
      · rw [if_pos hm, ih (cur ++ " " ++ w) hws, htest]
        simp
      · rw [if_neg hm]
        rw [show catMap pySplit (((cur, true) :: wrap_words measure max_width ws w).map
            Prod.fst) = pySplit cur
              ++ catMap pySplit ((wrap_words measure max_width ws w).map Prod.fst) from rfl]
        rw [ih w hws, hsplitw]
        simp

theorem wrap_paragraph_coverage (measure : String → ℚ) (max_width : ℚ) (p : String) :
    catMap pySplit ((wrap_paragraph measure max_width p).map Prod.fst) = pySplit p := by
  unfold wrap_paragraph
  by_cases h : pySplit p = []
  · simp [h, catMap, pySplit_empty]
  · rw [if_neg h]
    rw [wrap_words_coverage measure max_width (pySplit p) "" (fun w hw => pySplit_mem w hw)]
    simp [pySplit_empty]

/-- C7.  Wrap coverage: for every width measure, every positive maximum
width and every input text, the whitespace-split words of the output lines
of `wrap_text_to_lines`, concatenated in output order, are exactly the
whitespace-split word sequence of the input. -/
theorem wrap_coverage (measure : String → ℚ) (max_width : ℚ)
    (hpos : 0 < max_width) (full_text : String) :
    catMap pySplit ((wrap_text_to_lines measure full_text max_width).map Prod.fst)
      = pySplit full_text := by
  unfold wrap_text_to_lines
  rw [← catMap_pySplit_splitNl full_text]
  generalize splitNl full_text = L
  induction L with
  | nil => rfl
  | cons p ps ih =>
    rw [show catMap (wrap_paragraph measure max_width) (p :: ps)
        = wrap_paragraph measure max_width p
            ++ catMap (wrap_paragraph measure max_width) ps from rfl]
    rw [List.map_append, catMap_append, ih, wrap_paragraph_coverage]
    rfl

/-- Witness for C7 on a concrete text and length-based measure. -/
theorem wrap_coverage_witness :
    (0 : ℚ) < 12
      ∧ catMap pySplit
          ((wrap_text_to_lines (fun s => (s.data.length : ℚ))
              "WHEREFORE plaintiff prays\nfor relief" 12).map Prod.fst)
          = pySplit "WHEREFORE plaintiff prays\nfor relief" :=
  ⟨by norm_num,
    wrap_coverage (fun s => (s.data.length : ℚ)) 12 (by norm_num)
      "WHEREFORE plaintiff prays\nfor relief"⟩

theorem wrap_words_head (measure : String → ℚ) (max_width : ℚ) :
    ∀ (ws : List String) (cur : String), cur ≠ "" →
      ∃ ext b rest, wrap_words measure max_width ws cur = (cur ++ ext, b) :: rest := by
  intro ws
  induction ws with
  | nil =>
    intro cur hcur
    exact ⟨"", false, [], by simp [wrap_words, hcur, string_append_nil]⟩
  | cons w ws ih =>
    intro cur hcur
    by_cases hm : measure (cur ++ " " ++ w) ≤ max_width
    · have htest : (cur ++ " " ++ w) ≠ "" := by
        apply string_ne_empty_of_data_ne
        have hsp : (" " : String).data = [' '] := rfl
        simp [String.data_append, hsp]
      obtain ⟨ext, b, rest, hr⟩ := ih (cur ++ " " ++ w) htest
      refine ⟨" " ++ w ++ ext, b, rest, ?_⟩
      rw [show wrap_words measure max_width (w :: ws) cur
          = wrap_words measure max_width ws (cur ++ " " ++ w) from by
        simp [wrap_words, hcur, hm]]
      rw [hr]
      have hstr : (cur ++ " " ++ w) ++ ext = cur ++ (" " ++ w ++ ext) :=
        string_data_inj (by simp [String.data_append])
      rw [hstr]
    · refine ⟨"", true, wrap_words measure max_width ws w, ?_⟩
      rw [string_append_nil]
      simp [wrap_words, hcur, hm]

/-- C10.  When the first word of a paragraph alone measures wider than the
maximum width, the wrapper first emits the empty line flagged as wrapped,
the next emitted line starts with that word, and a single over-wide word
yields exactly the two entries `("", true)` and `(word, false)`. -/
theorem wrap_overwide_first_word (measure : String → ℚ) (max_width : ℚ)
    (p w : String) (ws : List String)
    (hw : pySplit p = w :: ws) (hover : max_width < measure w) :
    wrap_paragraph measure max_width p
        = ("", true) :: wrap_words measure max_width ws w
      ∧ (∃ ext b rest, wrap_words measure max_width ws w = (w ++ ext, b) :: rest)
      ∧ (ws = [] → wrap_paragraph measure max_width p = [("", true), (w, false)]) := by
  have hne : w ≠ "" :=
    string_ne_empty_of_data_ne (pySplit_mem (s := p) w (by rw [hw]; simp)).1
  have hm : ¬ measure w ≤ max_width := not_le.mpr hover
  have h1 : wrap_paragraph measure max_width p
      = ("", true) :: wrap_words measure max_width ws w := by
    unfold wrap_paragraph
    rw [hw, if_neg (by simp)]
    simp [wrap_words, hm]
  refine ⟨h1, wrap_words_head measure max_width ws w hne, ?_⟩
  intro hws
  subst hws
  rw [h1]
  simp [wrap_words, hne]

/-- Witness for C10: a single over-wide word. -/
theorem wrap_overwide_first_word_witness :
    pySplit "Unconstitutionality" = ["Unconstitutionality"]
      ∧ (10 : ℚ) < (fun s : String => (s.data.length : ℚ)) "Unconstitutionality"
      ∧ wrap_paragraph (fun s : String => (s.data.length : ℚ)) 10 "Unconstitutionality"
          = [("", true), ("Unconstitutionality", false)] :=
  ⟨by decide, by norm_num,
    (wrap_overwide_first_word (fun s : String => (s.data.length : ℚ)) 10
      "Unconstitutionality" "Unconstitutionality" [] (by decide) (by norm_num)).2.2 rfl⟩

/-! ### StructuralParser (`parse_header_and_sections`, `classify_headings`) -/

/-- A character of the class `[IVXLCDM]` under `re.IGNORECASE`. -/
def isRomanChar (c : Char) : Bool :=
  let u := c.toUpper
  u = 'I' || u = 'V' || u = 'X' || u = 'L' || u = 'C' || u = 'D' || u = 'M'

/-- One component `[IVXLCDM]+\.` or `[0-9]+\.` of the numbered-heading
pattern.  The regex engine's greedy run with backtracking is equivalent to
the maximal run followed by a literal dot: shrinking the run puts a class
character (never a dot) in the dot position, so backtracking inside a run
can never succeed, and the two classes are disjoint so at most one
alternative can start. -/
def headingComp (l : List Char) : Option (List Char × List Char) :=
  match l with
  | [] => none
  | c :: _ =>
    if isRomanChar c then
      match l.dropWhile isRomanChar with
      | '.' :: rest => some (l.takeWhile isRomanChar ++ ['.'], rest)
      | _ => none
    else if c.isDigit then
      match l.dropWhile Char.isDigit with
      | '.' :: rest => some (l.takeWhile Char.isDigit ++ ['.'], rest)
      | _ => none
    else none

/-- Greedy repetition of heading components; the budget (one per character)
suffices since each component consumes at least two characters. -/
def headingComps : Nat → List Char → List Char × List Char
  | 0, l => ([], l)
  | fuel + 1, l =>
    match headingComp l with
    | none => ([], l)
    | some (comp, rest) =>
      let p := headingComps fuel rest
      (comp ++ p.1, p.2)

/-- Source heading pattern
`^((?:[IVXLCDM]+\.|[0-9]+\.)+)\s+(.*)$` with `re.IGNORECASE`, returning
(group 1, group 2) on a match.  After `j < k` components the next
character starts a successfully parsed component, hence is a class
character and never whitespace, so only the maximal component count can be
followed by `\s+`; the regex is therefore deterministic and equals this
maximal-munch parse. -/
def headingMatch (line : String) : Option (String × String) :=
  let p := headingComps line.data.length line.data
  if p.1 = [] then none
  else if p.2.takeWhile (fun c => isPySpace c) = [] then none
  else some (String.mk p.1, String.mk (p.2.dropWhile (fun c => isPySpace c)))

/-- Source pattern `^[0-9]+\.\s*$`: a bare number followed by a dot and
optional whitespace. -/
def isBareNumberDot (s : String) : Bool :=
  match s.data.takeWhile Char.isDigit, s.data.dropWhile Char.isDigit with
  | [], _ => false
  | _ :: _, '.' :: rest => rest.all (fun c => isPySpace c)
  | _, _ => false

/-- `OrderedDict` insertion: re-inserting an existing key updates the value
in place, otherwise the pair is appended. -/
def odInsert (acc : List (String × String)) (k v : String) : List (String × String) :=
  if acc.any (fun p => p.1 == k) then
    acc.map (fun p => if p.1 == k then (k, v) else p)
  else acc ++ [(k, v)]

/-- Commit the currently accumulating section body under the current
heading key, if a heading has been opened. -/
def commit_section (acc : List (String × String)) (cur : Option String)
    (body : List String) : List (String × String) :=
  match cur with
  | none => acc
  | some k => odInsert acc k (String.intercalate "\n" body)

/-- Pass 2 of `parse_header_and_sections`: each line is tested against the
numbered-heading pattern, the ALL-CAPS test and the bare-number test in
order; on a trigger the open body is committed and a new key begins, with
the trailing dot stripped from a numbered key; other lines extend the open
body and are discarded before the first heading. -/
def section_loop : List String → Option String → List String →
    List (String × String) → List (String × String)
  | [], cur, body, acc => commit_section acc cur body
  | l0 :: rest, cur, body, acc =>
    let line := rstripNL l0
    match headingMatch line with
    | some (num0, title0) =>
      let heading_number := pyStrip num0
      let heading_title := pyStrip title0
      let heading_number2 :=
        if heading_number.data.getLast? = some '.' then
          String.mk heading_number.data.dropLast
        else heading_number
      section_loop rest (some (heading_number2 ++ " " ++ heading_title)) []
        (commit_section acc cur body)
    | none =>
      if is_line_all_caps (pyStrip line) then
        section_loop rest (some (pyStrip line)) [] (commit_section acc cur body)
      else if isBareNumberDot (pyStrip line) then
        section_loop rest (some (pyStrip line)) [] (commit_section acc cur body)
      else
        section_loop rest cur (body ++ [line]) acc

/-- Pass 1 of `parse_header_and_sections`: collect rstripped lines until
the first line matching one of the three heading triggers. -/
def header_split : List String → List String × List String
  | [] => ([], [])
  | l0 :: rest =>
    let line := rstripNL l0
    if (headingMatch line).isSome then ([], l0 :: rest)
    else if is_line_all_caps (pyStrip line) then ([], l0 :: rest)
    else if isBareNumberDot (pyStrip line) then ([], l0 :: rest)
    else
      let p := header_split rest
      (line :: p.1, p.2)

/-- Source `parse_header_and_sections`: header content (newline-joined) and
the ordered section map. -/
def parse_header_and_sections (raw_text : String) : String × List (String × String) :=
  let lines := pySplitlines raw_text
  let p := header_split lines
  (String.intercalate "\n" p.1, section_loop p.2 none [] [])

/-- Dots in the leading number token of a heading key
(`full_key.split(None, 1)[0].count('.')`). -/
def classify_heading_key (full_key : String) : String :=
  let heading_number := (pySplit full_key).headD ""
  if 1 < heading_number.data.countP (fun c => c = '.') then "subsection" else "section"

/-- Source `classify_headings` over the ordered section map. -/
def classify_headings (sections : List (String × String)) : List (String × String) :=
  sections.map (fun p => (p.1, classify_heading_key p.1))

/-- C5 counterexample: on the exact input lines of the claim, the line
`1.2.3 Sub` does not match the numbered-heading pattern at all (no dot
follows the final number component), so only two sections exist and no
SUBSECTION is produced: the claimed three-way classification is false. -/
theorem heading_boundary_counterexample :
    (parse_header_and_sections "1. Intro\n1.2. Damages\n1.2.3 Sub").2
        = [("1 Intro", ""), ("1.2 Damages", "1.2.3 Sub")]
      ∧ ((parse_header_and_sections "1. Intro\n1.2. Damages\n1.2.3 Sub").2).length ≠ 3 := by
  decide

/-- C5 amended: `1. Intro` and `1.2. Damages` are SECTION headings with
the trailing dot stripped from their keys; `1.2.3 Sub` is not a heading at
all (each number component must end in a dot followed by whitespace) and
is absorbed into the body of the previous section, while the dotted form
`1.2.3. Sub` yields the key `1.2.3 Sub` classified SUBSECTION. -/
theorem heading_boundary_amended :
    (parse_header_and_sections "1. Intro\n1.2. Damages\n1.2.3 Sub").2
        = [("1 Intro", ""), ("1.2 Damages", "1.2.3 Sub")]
      ∧ classify_headings (parse_header_and_sections "1. Intro\n1.2. Damages\n1.2.3 Sub").2
          = [("1 Intro", "section"), ("1.2 Damages", "section")]
      ∧ (parse_header_and_sections "1. Intro\n1.2. Damages\n1.2.3. Sub").2
          = [("1 Intro", ""), ("1.2 Damages", ""), ("1.2.3 Sub", "")]
      ∧ classify_headings (parse_header_and_sections "1. Intro\n1.2. Damages\n1.2.3. Sub").2
          = [("1 Intro", "section"), ("1.2 Damages", "section"),
              ("1.2.3 Sub", "subsection")] := by
  decide

/-! ### Exhibit extraction (`parse_exhibits_from_text` and the renumbering
loop of `main`) -/

/-- Source pattern `^\s*EXHIBIT\s+(\d+)\s*:\s*(.*)$` with `re.IGNORECASE`,
returning (digit string, remainder after the colon and its following
whitespace).  Every greedy run is maximal and deterministic: run characters
never equal the character required next, so backtracking cannot change the
outcome. -/
def exhibit_line_match (line : String) : Option (String × String) :=
  let l0 := line.data.dropWhile (fun c => isPySpace c)
  match ciDropPattern ['e', 'x', 'h', 'i', 'b', 'i', 't'] l0 with
  | none => none
  | some l1 =>
    if l1.takeWhile (fun c => isPySpace c) = [] then none
    else
      let l2 := l1.dropWhile (fun c => isPySpace c)
      if l2.takeWhile Char.isDigit = [] then none
      else
        match (l2.dropWhile Char.isDigit).dropWhile (fun c => isPySpace c) with
        | ':' :: l5 =>
          some (String.mk (l2.takeWhile Char.isDigit),
            String.mk (l5.dropWhile (fun c => isPySpace c)))
        | _ => none

/-- The accumulator loop of `parse_exhibits_from_text`: a matching line
commits the open accumulator (only if its number is unseen), then either
voids itself (number already seen) or opens a new accumulator seeded with
the trailing text; non-matching lines extend an open accumulator. -/
def exhibits_loop : List String → Option String → List String → List String →
    List (String × String) → List (String × String)
  | [], cur, content, seen, acc =>
    (match cur with
      | some n =>
        if seen.contains n then acc else acc ++ [(n, String.intercalate "\n" content)]
      | none => acc)
  | line :: rest, cur, content, seen, acc =>
    match exhibit_line_match line with
    | some (num, start_text) =>
      let acc2 :=
        match cur with
        | some n =>
          if seen.contains n then acc else acc ++ [(n, String.intercalate "\n" content)]
        | none => acc
      let seen2 :=
        match cur with
        | some n => if seen.contains n then seen else seen ++ [n]
        | none => seen
      if seen2.contains num then exhibits_loop rest none [] seen2 acc2
      else
        exhibits_loop rest (some num)
          (if start_text = "" then [] else [start_text]) seen2 acc2
    | none =>
      match cur with
      | some _ => exhibits_loop rest cur (content ++ [line]) seen acc
      | none => exhibits_loop rest cur content seen acc

/-- Source `parse_exhibits_from_text` as an ordered association list keyed
by the captured digit strings. -/
def parse_exhibits_from_text (raw_text : String) : List (String × String) :=
  exhibits_loop (pySplitlines raw_text) none [] [] []

/-- Python `int` on a digit string. -/
def strToNat (s : String) : Nat :=
  s.data.foldl (fun acc c => acc * 10 + (c.toNat - 48)) 0

/-- Stable insertion for `sorted(..., key=int)`: an element moves past
exactly the earlier elements with strictly smaller key. -/
def insertByKey (key : String → Nat) (x : String) : List String → List String
  | [] => [x]
  | y :: ys => if key y < key x then y :: insertByKey key x ys else x :: y :: ys

/-- Stable sort by integer key (Python `sorted` is stable). -/
def sortByKey (key : String → Nat) (l : List String) : List String :=
  l.foldr (insertByKey key) []

/-- Rekey the sorted exhibits `1..N` in ascending source-number order, as
done in `main` when building `exhibits_od`. -/
def renumber_loop : Nat → List String → List (String × String) → List (String × String)
  | _, [], _ => []
  | i, k :: ks, ex => (toString i, (ex.lookup k).getD "") :: renumber_loop (i + 1) ks ex

/-- The exhibit renumbering of `main`: sort the parsed exhibit numbers by
integer value and rekey them `1..N`. -/
def renumber_exhibits (ex : List (String × String)) : List (String × String) :=
  renumber_loop 1 (sortByKey strToNat (ex.map Prod.fst)) ex

/-- C3.  Exhibit renumbering on the spec's source sequence 3 (`C`), 1
(`A`), 1 (duplicate), 5 (`E`): parsing keeps first-seen numbers with the
duplicate's content dropped, and renumbering yields exactly the three
exhibits 1 ↦ `A`, 2 ↦ `C`, 3 ↦ `E` in that order. -/
theorem exhibit_renumber_example :
    parse_exhibits_from_text "EXHIBIT 3: C\nEXHIBIT 1: A\nEXHIBIT 1: A-dup\nEXHIBIT 5: E"
        = [("3", "C"), ("1", "A"), ("5", "E")]
      ∧ renumber_exhibits
          (parse_exhibits_from_text
            "EXHIBIT 3: C\nEXHIBIT 1: A\nEXHIBIT 1: A-dup\nEXHIBIT 5: E")
        = [("1", "A"), ("2", "C"), ("3", "E")] := by
  decide

/-! ### TocBuilder filtering (`filter_headings_for_toc`) -/

/-- One recorded heading coordinate
`(text, page_number, line_number, is_subheading)`. -/
structure HeadingPos where
  text : String
  page : Nat
  line : Nat
  sub : Bool
deriving DecidableEq

/-- Source test `re.match(r'(?i)^SPECIAL EXHIBITS$', heading_text.strip())`:
case-insensitive equality of the stripped text with `SPECIAL EXHIBITS`. -/
def matches_special_exhibits (s : String) : Bool :=
  (pyStrip s).data.map Char.toLower == "special exhibits".data

/-- The state machine of `filter_headings_for_toc`: `found_exhibit` is set
by the first exhibit reference, after which headings are dropped until the
`SPECIAL EXHIBITS` heading turns on `in_special`, which keeps everything. -/
def toc_filter_loop : Bool → Bool → List HeadingPos → List HeadingPos
  | _, _, [] => []
  | found_exhibit, in_special, h :: rest =>
    if in_special then h :: toc_filter_loop found_exhibit in_special rest
    else if found_exhibit then
      if matches_special_exhibits h.text then h :: toc_filter_loop found_exhibit true rest
      else toc_filter_loop found_exhibit in_special rest
    else h :: toc_filter_loop (is_exhibit_reference h.text) in_special rest

/-- Source `filter_headings_for_toc`. -/
def filter_headings_for_toc (heading_positions : List HeadingPos) : List HeadingPos :=
  toc_filter_loop false false heading_positions

/-- The filtering rule as the spec words it: keep everything up to and
including the first heading matching `is_exhibit_reference`, then drop
headings until one whose trimmed text case-insensitively equals
`SPECIAL EXHIBITS`, which is kept together with all remaining headings. -/
def toc_filter_model (l : List HeadingPos) : List HeadingPos :=
  let pre := l.takeWhile (fun h => !is_exhibit_reference h.text)
  match l.dropWhile (fun h => !is_exhibit_reference h.text) with
  | [] => pre
  | x :: post => pre ++ x :: post.dropWhile (fun h => !matches_special_exhibits h.text)

theorem toc_filter_loop_special (l : List HeadingPos) :
    ∀ b, toc_filter_loop b true l = l := by
  induction l with
  | nil => intro b; rfl
  | cons h rest ih => intro b; simp [toc_filter_loop, ih]

theorem toc_filter_loop_found (l : List HeadingPos) :
    toc_filter_loop true false l
      = l.dropWhile (fun h => !matches_special_exhibits h.text) := by
  induction l with
  | nil => rfl
  | cons h rest ih =>
    cases hs : matches_special_exhibits h.text
    · simp [toc_filter_loop, hs, List.dropWhile_cons, ih]
    · simp [toc_filter_loop, hs, List.dropWhile_cons, toc_filter_loop_special]

theorem toc_filter_eq_model : ∀ l : List HeadingPos,
    filter_headings_for_toc l = toc_filter_model l := by
  intro l
  unfold filter_headings_for_toc
  induction l with
  | nil => rfl
  | cons h rest ih =>
    cases he : is_exhibit_reference h.text
    · have hmodel : toc_filter_model (h :: rest) = h :: toc_filter_model rest := by
        unfold toc_filter_model
        simp only [List.takeWhile_cons, List.dropWhile_cons, he, Bool.not_false, if_true]
        cases hdrop : rest.dropWhile (fun x => !is_exhibit_reference x.text) <;> simp [hdrop]
      rw [hmodel, ← ih]
      simp [toc_filter_loop, he]
    · have hmodel : toc_filter_model (h :: rest)
          = h :: rest.dropWhile (fun x => !matches_special_exhibits x.text) := by
        unfold toc_filter_model
        simp [List.takeWhile_cons, List.dropWhile_cons, he]
      rw [hmodel]
      simp [toc_filter_loop, he, toc_filter_loop_found]

/-- C6.  TOC filtering: the source filter equals the keep/suppress/resume
rule of the spec on every heading-coordinate list, and on the concrete
example the heading `II. Random` is the only one suppressed. -/
theorem toc_filter_correct :
    (∀ l : List HeadingPos, filter_headings_for_toc l = toc_filter_model l)
      ∧ filter_headings_for_toc
          [⟨"I. Intro", 1, 1, false⟩, ⟨"EXHIBIT 1: Photo", 1, 2, false⟩,
            ⟨"II. Random", 2, 3, false⟩, ⟨"SPECIAL EXHIBITS", 2, 4, false⟩,
            ⟨"III. Ledger", 3, 5, false⟩]
        = [⟨"I. Intro", 1, 1, false⟩, ⟨"EXHIBIT 1: Photo", 1, 2, false⟩,
            ⟨"SPECIAL EXHIBITS", 2, 4, false⟩, ⟨"III. Ledger", 3, 5, false⟩] :=
  ⟨toc_filter_eq_model, by decide⟩

/-! ### Paginator (`draw_page_of_segments` and the two passes of
`generate_legal_document`)

The Python segment dicts carry different key sets and are read with
`.get`, which yields a falsy default for missing keys; they are modelled
as one total record whose unused fields hold those defaults.  Each `while`
loop advances its index at every iteration, so a budget of one iteration
per list element plus one always suffices. -/

/-- A layout segment as built by `prepare_main_pdf_segments`. -/
structure Segment where
  text : String
  font_name : String
  font_size : Nat
  alignment : String
  is_heading : Bool
  is_subheading : Bool
  page_always_new : Bool
  lines : List String
  delimiter_line : Bool
deriving DecidableEq

/-- An ordinary text/blank line segment. -/
def textSegment (text font_name : String) (font_size : Nat) (alignment : String)
    (is_heading is_subheading : Bool) : Segment :=
  ⟨text, font_name, font_size, alignment, is_heading, is_subheading, false, [], false⟩

/-- A `ForcedTitleBlock` segment (`page_always_new`). -/
def titleBlockSegment (lines : List String) : Segment :=
  ⟨"", "", 0, "", false, false, true, lines, false⟩

/-- A horizontal-rule segment. -/
def delimiterSegment (font_size : Nat) : Segment :=
  ⟨"", "Helvetica", font_size, "left", false, false, false, [], true⟩

/-- Result of one `draw_page_of_segments` call: the returned index, the
heading coordinates appended on this page, and the printed gutter numbers
as (segment index, printed number) pairs. -/
structure DrawResult where
  end_index : Nat
  coords : List HeadingPos
  gutters : List (Nat × Nat)
deriving DecidableEq

/-- The placement loop of `draw_page_of_segments`: while segments remain
and the page has line budget, a `page_always_new` segment either closes
the page (if lines were placed) or consumes the page alone; any other
segment is placed with printed gutter number `end_index + 1`, recording a
heading coordinate when flagged.  Delimiter and text segments advance
identically, so the branch on `delimiter_line` (pure drawing) is not
modelled. -/
def draw_page_loop (segments : List Segment) (max_lines_per_page page_number : Nat) :
    Nat → Nat → Nat → DrawResult
  | 0, end_index, _ => ⟨end_index, [], []⟩
  | fuel + 1, end_index, current_line_count =>
    match segments[end_index]? with
    | none => ⟨end_index, [], []⟩
    | some seg =>
      if current_line_count < max_lines_per_page then
        if seg.page_always_new then
          if 0 < current_line_count then ⟨end_index, [], []⟩
          else ⟨end_index + 1, [], []⟩
        else
          let line_number := end_index + 1
          let r := draw_page_loop segments max_lines_per_page page_number fuel
            (end_index + 1) (current_line_count + 1)
          ⟨r.end_index,
            (if seg.is_heading || seg.is_subheading then
              [⟨seg.text, page_number, line_number, seg.is_subheading⟩] else [])
              ++ r.coords,
            (end_index, line_number) :: r.gutters⟩
      else ⟨end_index, [], []⟩

/-- Source `draw_page_of_segments`, starting a fresh page at
`start_index`. -/
def draw_page_of_segments (segments : List Segment)
    (start_index max_lines_per_page page_number : Nat) : DrawResult :=
  draw_page_loop segments max_lines_per_page page_number
    (segments.length + 1) start_index 0

/-- Result of the real placement pass: the page ranges (start index, end
index) in order, all heading coordinates, all gutter numbers, and the
index at which the loop stopped. -/
structure PlaceResult where
  pages : List (Nat × Nat)
  coords : List HeadingPos
  gutters : List (Nat × Nat)
  final : Nat
deriving DecidableEq

/-- The real pass of `generate_legal_document`: call
`draw_page_of_segments` repeatedly, incrementing the page number, until
every segment is placed. -/
def place_loop (segments : List Segment) (max_lines_per_page : Nat) :
    Nat → Nat → Nat → PlaceResult
  | 0, current_index, _ => ⟨[], [], [], current_index⟩
  | fuel + 1, current_index, page_number =>
    if current_index < segments.length then
      let r := draw_page_of_segments segments current_index max_lines_per_page page_number
      let rest := place_loop segments max_lines_per_page fuel r.end_index (page_number + 1)
      ⟨(current_index, r.end_index) :: rest.pages, r.coords ++ rest.coords,
        r.gutters ++ rest.gutters, rest.final⟩
    else ⟨[], [], [], current_index⟩

/-- The whole real pass, from index 0 and page number 1. -/
def place_pages (segments : List Segment) (max_lines_per_page : Nat) : PlaceResult :=
  place_loop segments max_lines_per_page (segments.length + 1) 0 1

/-- The inner `while` of the estimation pass: advance `local_i` over
non-`page_always_new` segments while the line budget lasts. -/
def dry_scan (segments : List Segment) (max_lines_per_page : Nat) :
    Nat → Nat → Nat → Nat
  | 0, local_i, _ => local_i
  | fuel + 1, local_i, lines_used =>
    match segments[local_i]? with
    | none => local_i
    | some s =>
      if lines_used < max_lines_per_page then
        if s.page_always_new then local_i
        else dry_scan segments max_lines_per_page fuel (local_i + 1) (lines_used + 1)
      else local_i

/-- The outer estimation loop of `generate_legal_document`: count one page
per `page_always_new` segment, otherwise one page per inner scan. -/
def estimate_loop (segments : List Segment) (max_lines_per_page : Nat) : Nat → Nat → Nat
  | 0, _ => 0
  | fuel + 1, current_index =>
    match segments[current_index]? with
    | none => 0
    | some seg =>
      if seg.page_always_new then
        1 + estimate_loop segments max_lines_per_page fuel (current_index + 1)
      else
        1 + estimate_loop segments max_lines_per_page fuel
          (dry_scan segments max_lines_per_page (segments.length + 1) current_index 0)

/-- The dry pass's `text_pages` count. -/
def estimate_pages (segments : List Segment) (max_lines_per_page : Nat) : Nat :=
  estimate_loop segments max_lines_per_page (segments.length + 1) 0

/-- The gutter number the source prints for segment `i`, if any: every
placed non-`page_always_new` segment gets `i + 1`. -/
def gutter_entry (segments : List Segment) (i : Nat) : Option (Nat × Nat) :=
  match segments[i]? with
  | some s => if s.page_always_new then none else some (i, i + 1)
  | none => none

/-- All gutter numbers of a complete placement, in segment order. -/
def gutter_spec (segments : List Segment) : List (Nat × Nat) :=
  (idxRange 0 segments.length).filterMap (gutter_entry segments)

theorem draw_loop_ge (segments : List Segment) (max_lines page_number : Nat) :
    ∀ fuel i c, i ≤ (draw_page_loop segments max_lines page_number fuel i c).end_index := by
  intro fuel
  induction fuel with
  | zero => intro i c; exact Nat.le_refl i
  | succ fuel ih =>
    intro i c
    simp only [draw_page_loop]
    cases hseg : segments[i]? with
    | none => exact Nat.le_refl i
    | some seg =>
      dsimp only
      by_cases h1 : c < max_lines
      · rw [if_pos h1]
        by_cases h2 : seg.page_always_new
        · rw [if_pos h2]
          by_cases h3 : 0 < c
          · rw [if_pos h3]
          · rw [if_neg h3]; exact Nat.le_succ i
        · rw [if_neg h2]
          have := ih (i + 1) (c + 1)
          dsimp only
          omega
      · rw [if_neg h1]

theorem draw_loop_le (segments : List Segment) (max_lines page_number : Nat) :
    ∀ fuel i c, i ≤ segments.length →
      (draw_page_loop segments max_lines page_number fuel i c).end_index
        ≤ segments.length := by
  intro fuel
  induction fuel with
  | zero => intro i c h; exact h
  | succ fuel ih =>
    intro i c h
    simp only [draw_page_loop]
    cases hseg : segments[i]? with
    | none => exact h
    | some seg =>
      dsimp only
      have hilt : i < segments.length := by
        rcases List.getElem?_eq_some_iff.mp hseg with ⟨hlt, _⟩
        exact hlt
      by_cases h1 : c < max_lines
      · rw [if_pos h1]
        by_cases h2 : seg.page_always_new
        · rw [if_pos h2]
          by_cases h3 : 0 < c
          · rw [if_pos h3]; exact h
          · rw [if_neg h3]; exact hilt
        · rw [if_neg h2]
          exact ih (i + 1) (c + 1) (by omega)
      · rw [if_neg h1]; exact h

theorem draw_loop_dry (segments : List Segment) (max_lines page_number : Nat) :
    ∀ fuel i c, 1 ≤ c →
      (draw_page_loop segments max_lines page_number fuel i c).end_index
        = dry_scan segments max_lines fuel i c := by
  intro fuel
  induction fuel with
  | zero => intro i c _; rfl
  | succ fuel ih =>
    intro i c hc
    simp only [draw_page_loop, dry_scan]
    cases hseg : segments[i]? with
    | none => rfl
    | some seg =>
      dsimp only
      by_cases h1 : c < max_lines
      · rw [if_pos h1, if_pos h1]
        by_cases h2 : seg.page_always_new
        · rw [if_pos h2, if_pos h2, if_pos (show 0 < c by omega)]
        · rw [if_neg h2, if_neg h2]
          exact ih (i + 1) (c + 1) (by omega)
      · rw [if_neg h1, if_neg h1]

theorem draw_loop_no_title (segments : List Segment) (max_lines page_number : Nat) :
    ∀ fuel i c, 1 ≤ c →
      ∀ j s, i ≤ j →
        j < (draw_page_loop segments max_lines page_number fuel i c).end_index →
        segments[j]? = some s → s.page_always_new = false := by
  intro fuel
  induction fuel with
  | zero =>
    intro i c _ j s hij hjlt _
    simp [draw_page_loop] at hjlt
    omega
  | succ fuel ih =>
    intro i c hc j s hij hjlt hjseg
    rw [show draw_page_loop segments max_lines page_number (fuel + 1) i c
        = (match segments[i]? with
          | none => ⟨i, [], []⟩
          | some seg =>
            if c < max_lines then
              if seg.page_always_new then
                if 0 < c then ⟨i, [], []⟩ else ⟨i + 1, [], []⟩
              else
                let r := draw_page_loop segments max_lines page_number fuel (i + 1) (c + 1)
                ⟨r.end_index,
                  (if seg.is_heading || seg.is_subheading then
                    [⟨seg.text, page_number, i + 1, seg.is_subheading⟩] else [])
                    ++ r.coords,
                  (i, i + 1) :: r.gutters⟩
            else ⟨i, [], []⟩ : DrawResult) from rfl] at hjlt
    cases hseg : segments[i]? with
    | none => rw [hseg] at hjlt; simp at hjlt; omega
    | some seg =>
      rw [hseg] at hjlt
      dsimp only at hjlt
      by_cases h1 : c < max_lines
      · rw [if_pos h1] at hjlt
        by_cases h2 : seg.page_always_new
        · rw [if_pos h2, if_pos (show 0 < c by omega)] at hjlt
          simp at hjlt; omega
        · rw [if_neg h2] at hjlt
          dsimp only at hjlt
          by_cases hji : j = i
          · subst hji
            rw [hjseg] at hseg
            cases hseg
            simpa using h2
          · exact ih (i + 1) (c + 1) (by omega) j s (by omega) hjlt hjseg
      · rw [if_neg h1] at hjlt; simp at hjlt; omega

theorem draw_loop_cases (segments : List Segment) (max_lines page_number : Nat)
    (fuel i : Nat) :
    (∃ s, segments[i]? = some s ∧ s.page_always_new = true
        ∧ (draw_page_loop segments max_lines page_number fuel i 0).end_index = i + 1)
      ∨ (∀ j s, i ≤ j →
          j < (draw_page_loop segments max_lines page_number fuel i 0).end_index →
          segments[j]? = some s → s.page_always_new = false) := by
  cases fuel with
  | zero =>
    right
    intro j s hij hjlt _
    simp [draw_page_loop] at hjlt
    omega
  | succ fuel =>
    cases hseg : segments[i]? with
    | none =>
      right
      intro j s hij hjlt _
      simp only [draw_page_loop] at hjlt
      rw [hseg] at hjlt
      dsimp only at hjlt
      omega
    | some seg =>
      by_cases h1 : 0 < max_lines
      · by_cases h2 : seg.page_always_new
        · left
          refine ⟨seg, rfl, h2, ?_⟩
          simp only [draw_page_loop]
          rw [hseg]
          dsimp only
          rw [if_pos h1, if_pos h2, if_neg (by omega)]
        · right
          intro j s hij hjlt hjseg
          simp only [draw_page_loop] at hjlt
          rw [hseg] at hjlt
          dsimp only at hjlt
          rw [if_pos h1, if_neg h2] at hjlt
          dsimp only at hjlt
          by_cases hji : j = i
          · subst hji
            rw [hjseg] at hseg
            cases hseg
            simpa using h2
          · exact draw_loop_no_title segments max_lines page_number fuel (i + 1) 1
              (by omega) j s (by omega) hjlt hjseg
      · right
        intro j s hij hjlt _
        simp only [draw_page_loop] at hjlt
        rw [hseg] at hjlt
        dsimp only at hjlt
        rw [if_neg h1] at hjlt
        dsimp only at hjlt
        omega

theorem draw_loop_coords_page (segments : List Segment) (max_lines page_number : Nat) :
    ∀ fuel i c, ∀ hp ∈ (draw_page_loop segments max_lines page_number fuel i c).coords,
      hp.page = page_number := by
  intro fuel
  induction fuel with
  | zero => intro i c hp hmem; simp [draw_page_loop] at hmem
  | succ fuel ih =>
    intro i c hp hmem
    simp only [draw_page_loop] at hmem
    cases hseg : segments[i]? with
    | none => rw [hseg] at hmem; simp at hmem
    | some seg =>
      rw [hseg] at hmem
      dsimp only at hmem
      by_cases h1 : c < max_lines
      · rw [if_pos h1] at hmem
        by_cases h2 : seg.page_always_new
        · rw [if_pos h2] at hmem
          by_cases h3 : 0 < c
          · rw [if_pos h3] at hmem; simp at hmem
          · rw [if_neg h3] at hmem; simp at hmem
        · rw [if_neg h2] at hmem
          dsimp only at hmem
          rcases List.mem_append.mp hmem with hm | hm
          · by_cases hh : (seg.is_heading || seg.is_subheading) = true
            · rw [if_pos hh] at hm
              rw [List.mem_singleton] at hm
              subst hm
              rfl
            · rw [if_neg hh] at hm
              simp at hm
          · exact ih (i + 1) (c + 1) hp hm
      · rw [if_neg h1] at hmem; simp at hmem

theorem draw_loop_coords_char (segments : List Segment) (max_lines page_number : Nat) :
    ∀ fuel i c, ∀ hp ∈ (draw_page_loop segments max_lines page_number fuel i c).coords,
      ∃ j s, segments[j]? = some s ∧ hp.line = j + 1 ∧ hp.text = s.text
        ∧ (s.is_heading || s.is_subheading) = true ∧ s.page_always_new = false := by
  intro fuel
  induction fuel with
  | zero => intro i c hp hmem; simp [draw_page_loop] at hmem
  | succ fuel ih =>
    intro i c hp hmem
    simp only [draw_page_loop] at hmem
    cases hseg : segments[i]? with
    | none => rw [hseg] at hmem; simp at hmem
    | some seg =>
      rw [hseg] at hmem
      dsimp only at hmem
      by_cases h1 : c < max_lines
      · rw [if_pos h1] at hmem
        by_cases h2 : seg.page_always_new
        · rw [if_pos h2] at hmem
          by_cases h3 : 0 < c
          · rw [if_pos h3] at hmem; simp at hmem
          · rw [if_neg h3] at hmem; simp at hmem
        · rw [if_neg h2] at hmem
          dsimp only at hmem
          rcases List.mem_append.mp hmem with hm | hm
          · by_cases hh : (seg.is_heading || seg.is_subheading) = true
            · rw [if_pos hh] at hm
              rw [List.mem_singleton] at hm
              subst hm
              exact ⟨i, seg, hseg, rfl, rfl, hh, by simpa using h2⟩
            · rw [if_neg hh] at hm
              simp at hm
          · exact ih (i + 1) (c + 1) hp hm
      · rw [if_neg h1] at hmem; simp at hmem

theorem draw_loop_gutters (segments : List Segment) (max_lines page_number : Nat) :
    ∀ fuel i c,
      (draw_page_loop segments max_lines page_number fuel i c).gutters
        = (idxRange i
            ((draw_page_loop segments max_lines page_number fuel i c).end_index - i)).filterMap
              (gutter_entry segments) := by
  intro fuel
  induction fuel with
  | zero => intro i c; simp [draw_page_loop, idxRange]
  | succ fuel ih =>
    intro i c
    simp only [draw_page_loop]
    cases hseg : segments[i]? with
    | none => simp [idxRange]
    | some seg =>
      dsimp only
      by_cases h1 : c < max_lines
      · rw [if_pos h1]
        by_cases h2 : seg.page_always_new
        · rw [if_pos h2]
          by_cases h3 : 0 < c
          · rw [if_pos h3]; simp [idxRange]
          · rw [if_neg h3]
            dsimp only
            rw [show i + 1 - i = 1 from by omega]
            simp [idxRange, gutter_entry, hseg, h2]
        · rw [if_neg h2]
          dsimp only
          have hge := draw_loop_ge segments max_lines page_number fuel (i + 1) (c + 1)
          rw [show (draw_page_loop segments max_lines page_number fuel (i + 1)
                (c + 1)).end_index - i
              = ((draw_page_loop segments max_lines page_number fuel (i + 1)
                (c + 1)).end_index - (i + 1)) + 1 from by omega]
          rw [show idxRange i
                (((draw_page_loop segments max_lines page_number fuel (i + 1)
                  (c + 1)).end_index - (i + 1)) + 1)
              = i :: idxRange (i + 1)
                  ((draw_page_loop segments max_lines page_number fuel (i + 1)
                    (c + 1)).end_index - (i + 1)) from rfl]
          rw [List.filterMap_cons]
          rw [show gutter_entry segments i = some (i, i + 1) from by
            simp [gutter_entry, hseg, h2]]
          rw [← ih (i + 1) (c + 1)]
      · rw [if_neg h1]; simp [idxRange]

theorem draw_progress (segments : List Segment) (max_lines page_number : Nat)
    (i : Nat) (hmax : 0 < max_lines) (hi : i < segments.length) :
    i < (draw_page_of_segments segments i max_lines page_number).end_index := by
  unfold draw_page_of_segments
  have hseg : segments[i]? = some segments[i] := List.getElem?_eq_getElem hi
  simp only [draw_page_loop]
  rw [hseg]
  dsimp only
  rw [if_pos hmax]
  by_cases h2 : segments[i].page_always_new
  · rw [if_pos h2, if_neg (by omega)]
    exact Nat.lt_succ_self i
  · rw [if_neg h2]
    dsimp only
    have := draw_loop_ge segments max_lines page_number segments.length (i + 1) (0 + 1)
    omega

theorem draw_page_cases (segments : List Segment) (max_lines page_number i : Nat) :
    (∃ s, segments[i]? = some s ∧ s.page_always_new = true
        ∧ (draw_page_of_segments segments i max_lines page_number).end_index = i + 1)
      ∨ (∀ j s, i ≤ j →
          j < (draw_page_of_segments segments i max_lines page_number).end_index →
          segments[j]? = some s → s.page_always_new = false) :=
  draw_loop_cases segments max_lines page_number (segments.length + 1) i

theorem draw_page_le (segments : List Segment) (max_lines page_number i : Nat)
    (h : i ≤ segments.length) :
    (draw_page_of_segments segments i max_lines page_number).end_index
      ≤ segments.length :=
  draw_loop_le segments max_lines page_number (segments.length + 1) i 0 h

theorem draw_page_coords_page (segments : List Segment) (max_lines page_number i : Nat) :
    ∀ hp ∈ (draw_page_of_segments segments i max_lines page_number).coords,
      hp.page = page_number :=
  draw_loop_coords_page segments max_lines page_number (segments.length + 1) i 0

theorem draw_page_coords_char (segments : List Segment) (max_lines page_number i : Nat) :
    ∀ hp ∈ (draw_page_of_segments segments i max_lines page_number).coords,
      ∃ j s, segments[j]? = some s ∧ hp.line = j + 1 ∧ hp.text = s.text
        ∧ (s.is_heading || s.is_subheading) = true ∧ s.page_always_new = false :=
  draw_loop_coords_char segments max_lines page_number (segments.length + 1) i 0

theorem draw_page_gutters (segments : List Segment) (max_lines page_number i : Nat) :
    (draw_page_of_segments segments i max_lines page_number).gutters
      = (idxRange i
          ((draw_page_of_segments segments i max_lines page_number).end_index - i)).filterMap
            (gutter_entry segments) :=
  draw_loop_gutters segments max_lines page_number (segments.length + 1) i 0

theorem draw_advance_title (segments : List Segment) (max_lines page_number i : Nat)
    {seg : Segment} (hmax : 0 < max_lines)
    (hseg : segments[i]? = some seg) (h2 : seg.page_always_new = true) :
    (draw_page_of_segments segments i max_lines page_number).end_index = i + 1 := by
  unfold draw_page_of_segments
  simp only [draw_page_loop]
  rw [hseg]
  dsimp only
  rw [if_pos hmax, if_pos h2, if_neg (by omega)]

theorem draw_advance_dry (segments : List Segment) (max_lines page_number i : Nat)
    {seg : Segment} (hmax : 0 < max_lines)
    (hseg : segments[i]? = some seg) (h2 : seg.page_always_new = false) :
    (draw_page_of_segments segments i max_lines page_number).end_index
      = dry_scan segments max_lines (segments.length + 1) i 0 := by
  unfold draw_page_of_segments
  simp only [draw_page_loop, dry_scan]
  rw [hseg]
  dsimp only
  rw [if_pos hmax, if_pos hmax]
  have hnt : ¬ seg.page_always_new = true := by simp [h2]
  rw [if_neg hnt, if_neg hnt]
  dsimp only
  exact draw_loop_dry segments max_lines page_number segments.length (i + 1) (0 + 1)
    (by omega)

theorem estimate_eq_place (segments : List Segment) (max_lines : Nat)
    (hmax : 0 < max_lines) :
    ∀ fuel ci pg, estimate_loop segments max_lines fuel ci
      = (place_loop segments max_lines fuel ci pg).pages.length := by
  intro fuel
  induction fuel with
  | zero => intro ci pg; rfl
  | succ fuel ih =>
    intro ci pg
    simp only [estimate_loop, place_loop]
    cases hseg : segments[ci]? with
    | none =>
      have hlen : segments.length ≤ ci := List.getElem?_eq_none_iff.mp hseg
      rw [if_neg (by omega)]
      rfl
    | some seg =>
      have hlt : ci < segments.length := by
        rcases List.getElem?_eq_some_iff.mp hseg with ⟨h, _⟩
        exact h
      rw [if_pos hlt]
      dsimp only
      by_cases h2 : seg.page_always_new
      · rw [if_pos h2]
        rw [draw_advance_title segments max_lines pg ci hmax hseg h2]
        rw [List.length_cons, ih (ci + 1) (pg + 1)]
        omega
      · rw [if_neg h2]
        rw [← draw_advance_dry segments max_lines pg ci hmax hseg (by simpa using h2)]
        rw [List.length_cons, ih _ (pg + 1)]
        omega

theorem place_loop_final (segments : List Segment) (max_lines : Nat)
    (hmax : 0 < max_lines) :
    ∀ fuel ci pg, segments.length - ci < fuel → ci ≤ segments.length →
      (place_loop segments max_lines fuel ci pg).final = segments.length := by
  intro fuel
  induction fuel with
  | zero => intro ci pg h1 h2; omega
  | succ fuel ih =>
    intro ci pg h1 h2
    simp only [place_loop]
    by_cases hlt : ci < segments.length
    · rw [if_pos hlt]
      dsimp only
      have hprog := draw_progress segments max_lines pg ci hmax hlt
      have hle : (draw_page_of_segments segments ci max_lines pg).end_index
          ≤ segments.length := draw_page_le segments max_lines pg ci (by omega)
      exact ih _ (pg + 1) (by omega) (by omega)
    · rw [if_neg hlt]
      dsimp only
      omega

theorem place_loop_atomic (segments : List Segment) (max_lines : Nat) :
    ∀ fuel ci pg, ∀ p ∈ (place_loop segments max_lines fuel ci pg).pages,
      ∀ i s, p.1 ≤ i → i < p.2 → segments[i]? = some s → s.page_always_new = true →
        p.2 = p.1 + 1 ∧ i = p.1 := by
  intro fuel
  induction fuel with
  | zero => intro ci pg p hmem; simp [place_loop] at hmem
  | succ fuel ih =>
    intro ci pg p hmem i s h1 h2 hseg htitle
    simp only [place_loop] at hmem
    by_cases hlt : ci < segments.length
    · rw [if_pos hlt] at hmem
      dsimp only at hmem
      rcases List.mem_cons.mp hmem with hp | hp
      · subst hp
        dsimp only at h1 h2 ⊢
        rcases draw_page_cases segments max_lines pg ci with ⟨s0, hs0, ht0, hend⟩ | hnone
        · constructor
          · exact hend
          · rw [hend] at h2
            omega
        · have hfalse := hnone i s h1 h2 hseg
          rw [hfalse] at htitle
          exact Bool.noConfusion htitle
      · exact ih _ (pg + 1) p hp i s h1 h2 hseg htitle
    · rw [if_neg hlt] at hmem
      simp at hmem

theorem place_loop_coords_page_ge (segments : List Segment) (max_lines : Nat) :
    ∀ fuel ci pg, ∀ hp ∈ (place_loop segments max_lines fuel ci pg).coords,
      pg ≤ hp.page := by
  intro fuel
  induction fuel with
  | zero => intro ci pg hp hmem; simp [place_loop] at hmem
  | succ fuel ih =>
    intro ci pg hp hmem
    simp only [place_loop] at hmem
    by_cases hlt : ci < segments.length
    · rw [if_pos hlt] at hmem
      dsimp only at hmem
      rcases List.mem_append.mp hmem with hm | hm
      · rw [draw_page_coords_page segments max_lines pg ci hp hm]
      · have := ih _ (pg + 1) hp hm
        omega
    · rw [if_neg hlt] at hmem
      simp at hmem

theorem place_loop_pairwise (segments : List Segment) (max_lines : Nat) :
    ∀ fuel ci pg, List.Pairwise (fun a b => a.page ≤ b.page)
      (place_loop segments max_lines fuel ci pg).coords := by
  intro fuel
  induction fuel with
  | zero => intro ci pg; simp [place_loop]
  | succ fuel ih =>
    intro ci pg
    simp only [place_loop]
    by_cases hlt : ci < segments.length
    · rw [if_pos hlt]
      dsimp only
      rw [List.pairwise_append]
      refine ⟨?_, ih _ (pg + 1), ?_⟩
      · apply List.pairwise_of_forall_mem_list
        intro a ha b hb
        rw [draw_page_coords_page segments max_lines pg ci a ha,
          draw_page_coords_page segments max_lines pg ci b hb]
      · intro a ha b hb
        rw [draw_page_coords_page segments max_lines pg ci a ha]
        have := place_loop_coords_page_ge segments max_lines fuel _ (pg + 1) b hb
        omega
    · rw [if_neg hlt]
      simp

theorem place_loop_gutters (segments : List Segment) (max_lines : Nat)
    (hmax : 0 < max_lines) :
    ∀ fuel ci pg, segments.length - ci < fuel → ci ≤ segments.length →
      (place_loop segments max_lines fuel ci pg).gutters
        = (idxRange ci (segments.length - ci)).filterMap (gutter_entry segments) := by
  intro fuel
  induction fuel with
  | zero => intro ci pg h1 h2; omega
  | succ fuel ih =>
    intro ci pg h1 h2
    simp only [place_loop]
    by_cases hlt : ci < segments.length
    · rw [if_pos hlt]
      dsimp only
      have hprog := draw_progress segments max_lines pg ci hmax hlt
      have hle : (draw_page_of_segments segments ci max_lines pg).end_index
          ≤ segments.length := draw_page_le segments max_lines pg ci (by omega)
      rw [draw_page_gutters segments max_lines pg ci]
      rw [ih _ (pg + 1) (by omega) (by omega)]
      rw [← List.filterMap_append]
      have hsplit : segments.length - ci
          = ((draw_page_of_segments segments ci max_lines pg).end_index - ci)
            + (segments.length
                - (draw_page_of_segments segments ci max_lines pg).end_index) := by
        omega
      rw [hsplit, idxRange_append]
      rw [show ci + ((draw_page_of_segments segments ci max_lines pg).end_index - ci)
          = (draw_page_of_segments segments ci max_lines pg).end_index from by omega]
    · rw [if_neg hlt]
      dsimp only
      rw [show segments.length - ci = 0 from by omega]
      rfl

theorem place_loop_coords_char (segments : List Segment) (max_lines : Nat) :
    ∀ fuel ci pg, ∀ hp ∈ (place_loop segments max_lines fuel ci pg).coords,
      ∃ j s, segments[j]? = some s ∧ hp.line = j + 1 ∧ hp.text = s.text
        ∧ (s.is_heading || s.is_subheading) = true ∧ s.page_always_new = false := by
  intro fuel
  induction fuel with
  | zero => intro ci pg hp hmem; simp [place_loop] at hmem
  | succ fuel ih =>
    intro ci pg hp hmem
    simp only [place_loop] at hmem
    by_cases hlt : ci < segments.length
    · rw [if_pos hlt] at hmem
      dsimp only at hmem
      rcases List.mem_append.mp hmem with hm | hm
      · exact draw_page_coords_char segments max_lines pg ci hp hm
      · exact ih _ (pg + 1) hp hm
    · rw [if_neg hlt] at hmem
      simp at hmem

/-- C1.  The dry estimation pass and the real placement pass agree: for
every segment sequence and positive line budget, the `text_pages` count of
the estimation loop equals the number of `draw_page_of_segments` calls the
real pass makes, and the real pass places every segment. -/
theorem dry_pass_page_count (segments : List Segment) (max_lines_per_page : Nat)
    (hmax : 0 < max_lines_per_page) :
    estimate_pages segments max_lines_per_page
        = (place_pages segments max_lines_per_page).pages.length
      ∧ (place_pages segments max_lines_per_page).final = segments.length := by
  constructor
  · exact estimate_eq_place segments max_lines_per_page hmax (segments.length + 1) 0 1
  · exact place_loop_final segments max_lines_per_page hmax (segments.length + 1) 0 1
      (by omega) (by omega)

/-- Segment sequence used by the C1 witness: a heading, a forced title
block and three plain lines, paginated two lines per page. -/
def witnessSegs1 : List Segment :=
  [textSegment "I. INTRODUCTION" "Helvetica-Bold" 10 "center" true false,
    titleBlockSegment ["SUPERIOR COURT"],
    textSegment "Body one" "Helvetica" 10 "left" false false,
    textSegment "Body two" "Helvetica" 10 "left" false false,
    textSegment "Body three" "Helvetica" 10 "left" false false]

/-- Witness for C1 at a concrete mixed segment sequence. -/
theorem dry_pass_page_count_witness :
    0 < 2
      ∧ (estimate_pages witnessSegs1 2 = (place_pages witnessSegs1 2).pages.length
          ∧ (place_pages witnessSegs1 2).final = witnessSegs1.length) :=
  ⟨by decide, dry_pass_page_count witnessSegs1 2 (by decide)⟩

/-- C2.  Title-block atomicity: in every placement, a page range that
contains a `page_always_new` segment starts at that segment and contains
nothing else, so a `ForcedTitleBlock` is never split and never shares a
page. -/
theorem title_block_atomicity (segments : List Segment) (max_lines_per_page : Nat) :
    ∀ p ∈ (place_pages segments max_lines_per_page).pages,
      ∀ i s, p.1 ≤ i → i < p.2 → segments[i]? = some s → s.page_always_new = true →
        p.2 = p.1 + 1 ∧ i = p.1 :=
  fun p hp =>
    place_loop_atomic segments max_lines_per_page (segments.length + 1) 0 1 p hp

/-- Segment sequence used by the C2 witness: text before and after a
forced title block. -/
def witnessSegs2 : List Segment :=
  [textSegment "Before" "Helvetica" 10 "left" false false,
    titleBlockSegment ["IN THE SUPERIOR COURT"],
    textSegment "After" "Helvetica" 10 "left" false false]

/-- Witness for C2: the page holding the title block is exactly `(1, 2)`. -/
theorem title_block_atomicity_witness :
    ((1, 2) ∈ (place_pages witnessSegs2 5).pages)
      ∧ (1 ≤ 1 ∧ 1 < 2)
      ∧ (witnessSegs2[1]? = some (titleBlockSegment ["IN THE SUPERIOR COURT"]))
      ∧ (2 = 1 + 1 ∧ 1 = 1) :=
  ⟨by decide, ⟨by decide, by decide⟩, by decide,
    title_block_atomicity witnessSegs2 5 (1, 2) (by decide) 1
      (titleBlockSegment ["IN THE SUPERIOR COURT"]) (by decide) (by decide)
      (by decide) (by decide)⟩

/-- C8.  Heading-coordinate monotonicity: the page numbers in the recorded
heading-coordinate list are non-decreasing in list order, for every
segment sequence and line budget. -/
theorem heading_coordinate_monotonicity (segments : List Segment)
    (max_lines_per_page : Nat) :
    List.Pairwise (fun a b => a.page ≤ b.page)
      (place_pages segments max_lines_per_page).coords :=
  place_loop_pairwise segments max_lines_per_page (segments.length + 1) 0 1

/-- Segment sequence used for the C4 counterexample and witness: a forced
title block followed by a heading segment. -/
def cSegs4 : List Segment :=
  [titleBlockSegment ["COVER"],
    textSegment "I. CLAIMS" "Helvetica-Bold" 10 "center" true false]

/-- C4 counterexample: after a forced title block, the heading segment at
index 1 is printed and recorded with gutter number 2 (its 1-based global
segment position), but only 1 text-bearing (non-title-block) segment has
been placed up to and including it, and 2 ≠ 1 — the gutter number is not
the cumulative count of text-bearing segments. -/
theorem gutter_numbers_counterexample :
    (place_pages cSegs4 3).coords = [⟨"I. CLAIMS", 2, 2, false⟩]
      ∧ (place_pages cSegs4 3).gutters = [(1, 2)]
      ∧ (cSegs4.take 2).countP (fun s => !s.page_always_new) = 1
      ∧ (2 : Nat) ≠ 1 := by
  decide

/-- C4 amended: the printed gutter number of every placed non-title-block
segment equals its 1-based position in the whole segment sequence — the
count of all earlier segments of any kind (title blocks included) plus one
— and every recorded heading coordinate carries that same number as its
documentLineNumber. -/
theorem gutter_line_numbers (segments : List Segment) (max_lines_per_page : Nat)
    (hmax : 0 < max_lines_per_page) :
    (place_pages segments max_lines_per_page).gutters = gutter_spec segments
      ∧ ∀ hp ∈ (place_pages segments max_lines_per_page).coords,
          ∃ j s, segments[j]? = some s ∧ hp.line = j + 1 ∧ hp.text = s.text
            ∧ (s.is_heading || s.is_subheading) = true
            ∧ s.page_always_new = false := by
  constructor
  · have h := place_loop_gutters segments max_lines_per_page hmax
      (segments.length + 1) 0 1 (by omega) (by omega)
    simpa [place_pages, gutter_spec] using h
  · exact fun hp hmem =>
      place_loop_coords_char segments max_lines_per_page (segments.length + 1) 0 1 hp hmem

/-- Witness for the amended C4 on the counterexample segments. -/
theorem gutter_line_numbers_witness :
    0 < 3 ∧ (place_pages cSegs4 3).gutters = gutter_spec cSegs4 :=
  ⟨by decide, (gutter_line_numbers cSegs4 3 (by decide)).1⟩

end TFLegal
